import Mathlib

/-!
# Verification of the CPM vibration-signal feature extractor

Shallow embedding of `cpp_feature_extractor/src/feature_extractor.cpp`
(class `cpm::FeatureExtractor`) over exact arithmetic: C++ `double` values
become real numbers, `std::complex<double>` becomes `ℂ`, `std::vector`
becomes `List`, and the constant `PI` becomes the mathematical `Real.pi`
(the source stores its decimal rounding).  In-place FFT buffers are
modelled as total functions `ℕ → ℂ` updated with `Function.update`; loop
bounds are carried explicitly, so every loop of the source appears as a
structurally faithful recursion.
-/

namespace CPM

noncomputable section

open Finset

/-- The numeric epsilon `1e-10` used by the guards in the source. -/
def eps : ℝ := 1 / 10 ^ 10

/-- `FeatureExtractor::compute_rms`: accumulate the sum of squares over the
signal, then `sqrt(sum_sq / size)`; the empty signal returns `0`. -/
def compute_rms (signal : List ℝ) : ℝ :=
  if signal = [] then 0
  else Real.sqrt ((signal.foldl (fun acc s => acc + s * s) 0) / signal.length)

/-- `FeatureExtractor::compute_peak`: fold `max_abs = max(max_abs, |s|)`
starting from `0`; the empty signal returns `0`. -/
def compute_peak (signal : List ℝ) : ℝ :=
  if signal = [] then 0
  else signal.foldl (fun max_abs s => max max_abs |s|) 0

/-- `FeatureExtractor::compute_crest_factor`: `peak / rms`, guarded by
`rms < 1e-10 → 0`. -/
def compute_crest_factor (signal : List ℝ) : ℝ :=
  if compute_rms signal < eps then 0
  else compute_peak signal / compute_rms signal

/-- `FeatureExtractor::compute_kurtosis`: fewer than 4 samples return `0`;
otherwise one pass accumulates the second and fourth central moments
(`diff2 = diff * diff`, `m2 += diff2`, `m4 += diff2 * diff2`), both divided
by `n`, and the result is `m4 / (m2 * m2) - 3` guarded by `m2 < 1e-10 → 0`. -/
def compute_kurtosis (signal : List ℝ) : ℝ :=
  if signal.length < 4 then 0
  else
    let n : ℝ := signal.length
    let mean := signal.foldl (fun acc s => acc + s) 0 / n
    let mm := signal.foldl
      (fun acc s => (acc.1 + (s - mean) * (s - mean),
        acc.2 + ((s - mean) * (s - mean)) * ((s - mean) * (s - mean))))
      ((0 : ℝ), (0 : ℝ))
    let m2 := mm.1 / n
    let m4 := mm.2 / n
    if m2 < eps then 0 else m4 / (m2 * m2) - 3

/-- `FeatureExtractor::compute_skewness`: fewer than 3 samples return `0`;
one pass accumulates `m2` and `m3`, both divided by `n`; result is
`m3 / std_dev^3` with `std_dev = sqrt m2`, guarded by `std_dev < 1e-10 → 0`. -/
def compute_skewness (signal : List ℝ) : ℝ :=
  if signal.length < 3 then 0
  else
    let n : ℝ := signal.length
    let mean := signal.foldl (fun acc s => acc + s) 0 / n
    let mm := signal.foldl
      (fun acc s => (acc.1 + (s - mean) * (s - mean),
        acc.2 + ((s - mean) * (s - mean)) * (s - mean)))
      ((0 : ℝ), (0 : ℝ))
    let m2 := mm.1 / n
    let m3 := mm.2 / n
    let std_dev := Real.sqrt m2
    if std_dev < eps then 0 else m3 / (std_dev * std_dev * std_dev)

/-- Loop body of `FeatureExtractor::next_power_of_2`: double `p` while
`p < n`.  The source starts from `p = 1`, so `0 < p` is an invariant. -/
def nextPow2Aux (n : ℕ) (p : ℕ) (hp : 0 < p) : ℕ :=
  if _h : p < n then nextPow2Aux n (2 * p) (by omega) else p
termination_by n - p
decreasing_by omega

/-- `FeatureExtractor::next_power_of_2`: smallest power of two `≥ n`
computed by doubling from `1`. -/
def next_power_of_2 (n : ℕ) : ℕ := nextPow2Aux n 1 (by omega)

/-- Loop body of `FeatureExtractor::bit_reverse`:
`result = (result << 1) | (n & 1); n >>= 1`, i.e. `result ↦ 2*result + n % 2`,
repeated `bits` times. -/
def bitRevAux : ℕ → ℕ → ℕ → ℕ
  | _, result, 0 => result
  | n, result, bits + 1 => bitRevAux (n / 2) (2 * result + n % 2) bits

/-- `FeatureExtractor::bit_reverse`: reverse the low `bits` bits of `n`. -/
def bit_reverse (n : ℕ) (bits : ℕ) : ℕ := bitRevAux n 0 bits

/-- Accumulator-free form of bit reversal (for specification/proofs):
`revBits n b` reverses the low `b` bits of `n`. -/
def revBits : ℕ → ℕ → ℕ
  | _, 0 => 0
  | n, b + 1 => n % 2 * 2 ^ b + revBits (n / 2) b

/-- Bit-count loop of `FeatureExtractor::fft_recursive`:
`for (temp = n; temp > 1; temp >>= 1) ++bits`. -/
def fftCountBits (n : ℕ) : ℕ :=
  if 1 < n then fftCountBits (n / 2) + 1 else 0
termination_by n
decreasing_by omega

/-- Bit-reversal permutation loop of `FeatureExtractor::fft_recursive`:
for `i` from `i₀` up to `n`, swap `x[i]` and `x[j]` for `j = bit_reverse i bits`
whenever `i < j`. -/
def bitrevLoop (bits n : ℕ) (i : ℕ) (x : ℕ → ℂ) : ℕ → ℂ :=
  if _h : i < n then
    bitrevLoop bits n (i + 1)
      (if i < bit_reverse i bits then
        Function.update (Function.update x i (x (bit_reverse i bits)))
          (bit_reverse i bits) (x i)
      else x)
  else x
termination_by n - i
decreasing_by omega

/-- The stage twiddle factor `wlen` of the source:
`std::complex(cos angle, sin angle)` with `angle = -2*PI/len`, i.e.
`e^(-2*π*I/len)`. -/
def twiddle (len : ℕ) : ℂ := Complex.exp (-(2 * (Real.pi : ℂ) / len) * Complex.I)

/-- Innermost butterfly loop of `FeatureExtractor::fft_recursive`: for `j`
from `j₀` up to `len/2`, with running twiddle power `w`:
`u = x[i+j]; t = w * x[i+j+len/2]; x[i+j] = u + t; x[i+j+len/2] = u - t;
w *= wlen`. -/
def fftInner (len : ℕ) (wlen : ℂ) (i : ℕ) (j : ℕ) (w : ℂ) (x : ℕ → ℂ) : ℕ → ℂ :=
  if _h : j < len / 2 then
    fftInner len wlen i (j + 1) (w * wlen)
      (Function.update
        (Function.update x (i + j) (x (i + j) + w * x (i + j + len / 2)))
        (i + j + len / 2) (x (i + j) - w * x (i + j + len / 2)))
  else x
termination_by len / 2 - j
decreasing_by omega

/-- Middle loop of `FeatureExtractor::fft_recursive`: blocks start at
`i = i₀, i₀+len, …` while `i < n`; each block runs the butterfly loop with
`w` initialised to `1`. -/
def fftBlocks (n len : ℕ) (hl : 0 < len) (wlen : ℂ) (i : ℕ) (x : ℕ → ℂ) : ℕ → ℂ :=
  if _h : i < n then
    fftBlocks n len hl wlen (i + len) (fftInner len wlen i 0 1 x)
  else x
termination_by n - i
decreasing_by omega

/-- Outer stage loop of `FeatureExtractor::fft_recursive`: for
`len = len₀, 2*len₀, …` while `len ≤ n`, run all blocks of size `len` with
twiddle `e^(-2πI/len)`. -/
def fftStages (n : ℕ) (len : ℕ) (hl : 0 < len) (x : ℕ → ℂ) : ℕ → ℂ :=
  if _h : len ≤ n then
    fftStages n (2 * len) (by omega) (fftBlocks n len hl (twiddle len) 0 x)
  else x
termination_by n + 1 - len
decreasing_by omega

/-- `FeatureExtractor::fft_recursive`: size `≤ 1` returns the buffer
unchanged; otherwise bit-reversal permutation over `fftCountBits n` bits
followed by the butterfly stages from `len = 2`. -/
def fft_recursive (n : ℕ) (x : ℕ → ℂ) : ℕ → ℂ :=
  if n ≤ 1 then x
  else fftStages n 2 (by omega) (bitrevLoop (fftCountBits n) n 0 x)

/-- The reference forward discrete Fourier transform:
`X[k] = Σ_{m<n} x[m] · e^(-2πI·k·m/n)`. -/
def dft (n : ℕ) (x : ℕ → ℂ) (k : ℕ) : ℂ :=
  ∑ m ∈ Finset.range n, x m * Complex.exp (-(2 * (Real.pi : ℂ) * Complex.I) * k * m / n)

/-- The zero-padded complex buffer built by `compute_fft`: the signal with
zero imaginary parts, indices beyond the signal zero-filled. -/
def signalPad (signal : List ℝ) : ℕ → ℂ :=
  fun i => if h : i < signal.length then ((signal.get ⟨i, h⟩ : ℝ) : ℂ) else 0

/-- `FeatureExtractor::compute_fft`: empty input returns two empty lists;
otherwise pad to `n = next_power_of_2 size`, transform, keep the first `n/2`
bins with magnitude `|X[i]| * 2 / n` and frequency `i * (sample_rate / n)`,
then halve the DC magnitude (`magnitudes[0] /= 2`) if present. -/
def compute_fft (sample_rate : ℝ) (signal : List ℝ) : List ℝ × List ℝ :=
  if signal = [] then ([], [])
  else
    let n := next_power_of_2 signal.length
    let X := fft_recursive n (signalPad signal)
    let half_n := n / 2
    let freq_resolution := sample_rate / n
    let magnitudes := (List.range half_n).map (fun i => Complex.abs (X i) * 2 / n)
    let frequencies := (List.range half_n).map
      (fun (i : ℕ) => (i : ℝ) * freq_resolution)
    (match magnitudes with
      | [] => []
      | m0 :: rest => m0 / 2 :: rest,
     frequencies)

/-- `FeatureExtractor::compute_spectral_centroid`: power-weighted mean
frequency, `0` on empty spectra or total power below `1e-10`. -/
def compute_spectral_centroid (magnitudes frequencies : List ℝ) : ℝ :=
  if magnitudes = [] ∨ frequencies = [] then 0
  else
    let acc := (magnitudes.zip frequencies).foldl
      (fun acc mf => (acc.1 + mf.2 * (mf.1 * mf.1), acc.2 + mf.1 * mf.1))
      ((0 : ℝ), (0 : ℝ))
    if acc.2 < eps then 0 else acc.1 / acc.2

/-- `FeatureExtractor::compute_spectral_spread`: power-weighted standard
deviation about `centroid`, `0` on empty spectra or total power below
`1e-10`. -/
def compute_spectral_spread (magnitudes frequencies : List ℝ) (centroid : ℝ) : ℝ :=
  if magnitudes = [] ∨ frequencies = [] then 0
  else
    let acc := (magnitudes.zip frequencies).foldl
      (fun acc mf =>
        (acc.1 + (mf.2 - centroid) * (mf.2 - centroid) * (mf.1 * mf.1),
         acc.2 + mf.1 * mf.1))
      ((0 : ℝ), (0 : ℝ))
    if acc.2 < eps then 0 else Real.sqrt (acc.1 / acc.2)

/-- `FeatureExtractor::FREQ_BANDS`: the five half-open bands `[low, high)`
in Hz, the last one `[2000, 10000)`. -/
def FREQ_BANDS : List (ℝ × ℝ) :=
  [(0, 100), (100, 500), (500, 1000), (1000, 2000), (2000, 10000)]

/-- Inner band loop of `FeatureExtractor::compute_bandpower`: scan the bands
in order; the first band with `low ≤ freq ∧ freq < high` receives `power` and
the scan breaks; if no band matches, nothing is added. -/
def addPower : List (ℝ × ℝ) → List ℝ → ℝ → ℝ → List ℝ
  | [], bp, _, _ => bp
  | _ :: _, [], _, _ => []
  | band :: bands, v :: bp, freq, power =>
    if band.1 ≤ freq ∧ freq < band.2 then (v + power) :: bp
    else v :: addPower bands bp freq power

/-- `FeatureExtractor::compute_bandpower`: zero-initialised per-band sums;
each bin contributes its squared magnitude to the first matching band. -/
def compute_bandpower (magnitudes frequencies : List ℝ) : List ℝ :=
  let bandpowers : List ℝ := List.replicate FREQ_BANDS.length 0
  if magnitudes = [] ∨ frequencies = [] then bandpowers
  else (magnitudes.zip frequencies).foldl
    (fun bp mf => addPower FREQ_BANDS bp mf.2 (mf.1 * mf.1)) bandpowers

/-- `FeatureExtractor::get_band_names`. -/
def get_band_names : List String :=
  ["0-100 Hz", "100-500 Hz", "500-1000 Hz", "1000-2000 Hz", "2000+ Hz"]

/-- `cpm::SignalFeatures`: the output record of `extract_all`. -/
structure SignalFeatures where
  rms : ℝ
  peak : ℝ
  crest_factor : ℝ
  kurtosis : ℝ
  skewness : ℝ
  spectral_centroid : ℝ
  spectral_spread : ℝ
  fft_magnitude : List ℝ
  fft_frequencies : List ℝ
  bandpowers : List ℝ
  band_names : List String

/-- `FeatureExtractor::extract_all`: time-domain statistics, one call to
`compute_fft`, then the spectral statistics of that single spectrum. -/
def extract_all (sample_rate : ℝ) (signal : List ℝ) : SignalFeatures :=
  let mf := compute_fft sample_rate signal
  { rms := compute_rms signal
    peak := compute_peak signal
    crest_factor := compute_crest_factor signal
    kurtosis := compute_kurtosis signal
    skewness := compute_skewness signal
    spectral_centroid := compute_spectral_centroid mf.1 mf.2
    spectral_spread := compute_spectral_spread mf.1 mf.2
      (compute_spectral_centroid mf.1 mf.2)
    fft_magnitude := mf.1
    fft_frequencies := mf.2
    bandpowers := compute_bandpower mf.1 mf.2
    band_names := get_band_names }

/-- `FeatureExtractor::FeatureExtractor(sample_rate)`: stores the rate but
throws `std::invalid_argument` when `sample_rate ≤ 0` (the object is then
never produced).  Modelled as `Except`: `ok` carries the stored rate. -/
def makeFeatureExtractor (sample_rate : ℝ) : Except String ℝ :=
  if sample_rate ≤ 0 then Except.error "Sample rate must be positive"
  else Except.ok sample_rate

/-- `FeatureExtractor::set_sample_rate`: throws before assigning when
`rate ≤ 0`, so the stored rate is unchanged on failure.  Returns the
post-state together with the raised error, if any. -/
def set_sample_rate (sample_rate_ : ℝ) (rate : ℝ) : ℝ × Option String :=
  if rate ≤ 0 then (sample_rate_, some "Sample rate must be positive")
  else (rate, none)

/-! ## Specification-side definitions (from the spec, for comparison) -/

/-- Population (divide-by-`n`) central moment of order `k` about the mean,
as the spec describes it. -/
def centralMoment (l : List ℝ) (k : ℕ) : ℝ :=
  (l.map (fun s => (s - l.sum / l.length) ^ k)).sum / l.length

/-- Contents of the FFT working buffer after the bit-reversal permutation
and the first `s` butterfly stages (block sizes `2, …, 2^s`) on an input of
length `2^K`: position `p` holds bin `p mod 2^s` of the order-`2^s` DFT of
the stride-`2^(K-s)` subsequence selected by the bit-reversed block index. -/
def stageSpec (K s : ℕ) (x : ℕ → ℂ) (p : ℕ) : ℂ :=
  dft (2 ^ s) (fun m => x (m * 2 ^ (K - s) + revBits (p / 2 ^ s) (K - s)))
    (p % 2 ^ s)

/-- Index of the first band of `bands` whose half-open interval
`[low, high)` contains `freq`, if any. -/
def firstBandIdx : List (ℝ × ℝ) → ℝ → Option ℕ
  | [], _ => none
  | band :: bands, freq =>
    if band.1 ≤ freq ∧ freq < band.2 then some 0
    else (firstBandIdx bands freq).map (· + 1)

/-- Index of the first `FREQ_BANDS` band containing `freq` (first match in
band order), if any. -/
def firstMatchingBand (freq : ℝ) : Option ℕ := firstBandIdx FREQ_BANDS freq

/-! ## Helper lemmas -/

theorem foldl_add_map (f : ℝ → ℝ) (l : List ℝ) (c : ℝ) :
    l.foldl (fun acc s => acc + f s) c = c + (l.map f).sum := by
  induction l generalizing c with
  | nil => simp
  | cons a l ih => simp only [List.foldl_cons, List.map_cons, List.sum_cons, ih]; ring

theorem foldl_pair_map (f g : ℝ → ℝ) (l : List ℝ) (c d : ℝ) :
    l.foldl (fun acc s => (acc.1 + f s, acc.2 + g s)) (c, d) =
      (c + (l.map f).sum, d + (l.map g).sum) := by
  induction l generalizing c d with
  | nil => simp
  | cons a l ih =>
    simp only [List.foldl_cons, List.map_cons, List.sum_cons, ih, Prod.mk.injEq]
    constructor <;> ring

theorem next_power_of_2_one : next_power_of_2 1 = 1 := by
  simp [next_power_of_2, nextPow2Aux]

theorem compute_fft_single (sample_rate v : ℝ) :
    compute_fft sample_rate [v] = ([], []) := by
  simp [compute_fft, next_power_of_2_one]

theorem foldl_add_id (l : List ℝ) (c : ℝ) :
    l.foldl (fun acc s => acc + s) c = c + l.sum := by
  simpa using foldl_add_map (fun s => s) l c

theorem foldl_max_abs_replicate (v c : ℝ) (n : ℕ) :
    (List.replicate n v).foldl (fun acc s => max acc |s|) c =
      if n = 0 then c else max c |v| := by
  induction n generalizing c with
  | zero => simp
  | succ n ih =>
    rw [List.replicate_succ, List.foldl_cons, ih]
    rcases Nat.eq_zero_or_pos n with h | h
    · simp [h]
    · simp only [h.ne', if_neg, Nat.succ_ne_zero, if_false]
      rw [max_assoc, max_self]

/-! ## Claim theorems -/

/-- **C3.** On the empty sample window, `extract_all` returns (totally,
with no error) the record with `rms = peak = crest_factor =
spectral_centroid = spectral_spread = 0` (and `kurtosis = skewness = 0`),
all five bandpowers `0`, and empty spectrum sequences. -/
theorem extract_all_empty (sample_rate : ℝ) :
    extract_all sample_rate [] =
      { rms := 0, peak := 0, crest_factor := 0, kurtosis := 0, skewness := 0,
        spectral_centroid := 0, spectral_spread := 0, fft_magnitude := [],
        fft_frequencies := [], bandpowers := List.replicate 5 0,
        band_names := get_band_names } := by
  have hrms : compute_rms [] = 0 := by simp [compute_rms]
  have hcrest : compute_crest_factor [] = 0 := by
    rw [compute_crest_factor, if_pos]
    rw [hrms, eps]; norm_num
  simp [extract_all, compute_fft, hrms, hcrest, compute_peak, compute_kurtosis,
    compute_skewness, compute_spectral_centroid, compute_spectral_spread,
    compute_bandpower, FREQ_BANDS]

/-- **C10.** A single-sample window pads to `N = next_power_of_2 1 = 1`, so
`compute_fft` returns `N/2 = 0` bins: two empty sequences; `extract_all`
then yields an empty spectrum, zero centroid/spread and zero bandpowers,
exactly as for the empty window. -/
theorem extract_all_single_sample (sample_rate v : ℝ) :
    next_power_of_2 1 = 1 ∧
    compute_fft sample_rate [v] = ([], []) ∧
    (extract_all sample_rate [v]).fft_magnitude = [] ∧
    (extract_all sample_rate [v]).fft_frequencies = [] ∧
    (extract_all sample_rate [v]).spectral_centroid = 0 ∧
    (extract_all sample_rate [v]).spectral_spread = 0 ∧
    (extract_all sample_rate [v]).bandpowers = List.replicate 5 0 ∧
    (extract_all sample_rate [v]).fft_magnitude =
      (extract_all sample_rate []).fft_magnitude ∧
    (extract_all sample_rate [v]).fft_frequencies =
      (extract_all sample_rate []).fft_frequencies ∧
    (extract_all sample_rate [v]).spectral_centroid =
      (extract_all sample_rate []).spectral_centroid ∧
    (extract_all sample_rate [v]).spectral_spread =
      (extract_all sample_rate []).spectral_spread ∧
    (extract_all sample_rate [v]).bandpowers =
      (extract_all sample_rate []).bandpowers := by
  have h1 := compute_fft_single sample_rate v
  refine ⟨next_power_of_2_one, h1, ?_⟩
  rw [extract_all_empty]
  simp [extract_all, h1, compute_spectral_centroid,
    compute_spectral_spread, compute_bandpower, FREQ_BANDS]

/-- **C4.** Constructing a `FeatureExtractor` with rate `r`, or calling
`set_sample_rate r`, fails with the invalid-configuration error iff
`r ≤ 0`; every positive `r` is accepted and stored; a failed
`set_sample_rate` leaves the stored rate unchanged. -/
theorem sample_rate_validation (st r : ℝ) :
    ((∃ e, makeFeatureExtractor r = Except.error e) ↔ r ≤ 0) ∧
    (0 < r → makeFeatureExtractor r = Except.ok r) ∧
    ((set_sample_rate st r).2 ≠ none ↔ r ≤ 0) ∧
    (0 < r → set_sample_rate st r = (r, none)) ∧
    (r ≤ 0 → (set_sample_rate st r).1 = st) := by
  unfold makeFeatureExtractor set_sample_rate
  by_cases h : r ≤ 0
  · have h2 : ¬0 < r := by linarith
    simp [h, h2]
  · simp [h]

/-- Witness for **C4** at `st = 5`, `r = -1`: the update fails and the
stored rate is unchanged. -/
theorem sample_rate_validation_witness :
    ((-1 : ℝ) ≤ 0) ∧ (set_sample_rate (5 : ℝ) (-1)).1 = 5 :=
  ⟨by norm_num, (sample_rate_validation (5 : ℝ) (-1)).2.2.2.2 (by norm_num)⟩

/-- **C7.** `compute_crest_factor` returns `0` whenever the window RMS is
below the absolute epsilon `1e-10`, and `peak / rms` otherwise, so the
division only happens under the guard `rms ≥ 1e-10`. -/
theorem crest_factor_guard (signal : List ℝ) :
    (compute_rms signal < eps → compute_crest_factor signal = 0) ∧
    (eps ≤ compute_rms signal →
      compute_crest_factor signal = compute_peak signal / compute_rms signal) := by
  unfold compute_crest_factor
  constructor
  · intro h; rw [if_pos h]
  · intro h; rw [if_neg (not_lt.mpr h)]

/-- Witness for **C7** at the window `[1, 1]`, whose RMS is `1 ≥ 1e-10`. -/
theorem crest_factor_guard_witness :
    eps ≤ compute_rms [1, 1] ∧
    compute_crest_factor [1, 1] = compute_peak [1, 1] / compute_rms [1, 1] := by
  have hrms : compute_rms [1, 1] = 1 := by
    rw [compute_rms, if_neg (by simp)]
    norm_num [Real.sqrt_one]
  have h : eps ≤ compute_rms [1, 1] := by rw [hrms, eps]; norm_num
  exact ⟨h, (crest_factor_guard [1, 1]).2 h⟩

/-- **C9.** `extract_all` is deterministic: identical windows and identical
stored sample rate give identical feature records in every field. -/
theorem extract_all_deterministic (sr1 sr2 : ℝ) (s1 s2 : List ℝ)
    (hr : sr1 = sr2) (hs : s1 = s2) :
    extract_all sr1 s1 = extract_all sr2 s2 := by
  rw [hr, hs]

/-- Witness for **C9** at sample rate `1` and window `[1]`. -/
theorem extract_all_deterministic_witness :
    ((1 : ℝ) = 1 ∧ ([1] : List ℝ) = [1]) ∧
    extract_all (1 : ℝ) [1] = extract_all (1 : ℝ) [1] :=
  ⟨⟨rfl, rfl⟩, extract_all_deterministic 1 1 [1] [1] rfl rfl⟩

/-- **C6.** `compute_kurtosis` returns `0` on windows of fewer than 4
samples; otherwise, writing `m2`, `m4` for the population central moments,
it returns `0` when `m2 < 1e-10` and `m4 / m2² - 3` otherwise. -/
theorem compute_kurtosis_spec (signal : List ℝ) :
    (signal.length < 4 → compute_kurtosis signal = 0) ∧
    (4 ≤ signal.length →
      (centralMoment signal 2 < eps → compute_kurtosis signal = 0) ∧
      (eps ≤ centralMoment signal 2 →
        compute_kurtosis signal =
          centralMoment signal 4 / centralMoment signal 2 ^ 2 - 3)) := by
  by_cases hlen : signal.length < 4
  · exact ⟨fun _ => by rw [compute_kurtosis, if_pos hlen],
      fun h4 => absurd h4 (by omega)⟩
  · have key : compute_kurtosis signal =
        if centralMoment signal 2 < eps then 0
        else centralMoment signal 4 / centralMoment signal 2 ^ 2 - 3 := by
      simp only [compute_kurtosis, if_neg hlen, foldl_add_id, zero_add,
        foldl_pair_map, centralMoment]
      have h2 : (signal.map fun s =>
            (s - signal.sum / signal.length) * (s - signal.sum / signal.length)) =
          signal.map fun s => (s - signal.sum / signal.length) ^ 2 := by
        congr 1; funext s; ring
      have h4 : (signal.map fun s =>
            (s - signal.sum / signal.length) * (s - signal.sum / signal.length) *
              ((s - signal.sum / signal.length) * (s - signal.sum / signal.length))) =
          signal.map fun s => (s - signal.sum / signal.length) ^ 4 := by
        congr 1; funext s; ring
      rw [h2, h4]
      congr 1
      ring
    refine ⟨fun h => absurd h hlen, fun _ => ⟨fun h => ?_, fun h => ?_⟩⟩ <;> rw [key]
    · rw [if_pos h]
    · rw [if_neg (not_lt.mpr h)]

/-- Witness for **C6** at `[0, 0, 0, 1]`: length 4, variance `3/16 ≥ 1e-10`,
excess kurtosis `m4/m2² - 3`. -/
theorem compute_kurtosis_spec_witness :
    (4 ≤ ([0, 0, 0, 1] : List ℝ).length ∧
      eps ≤ centralMoment [0, 0, 0, 1] 2) ∧
    compute_kurtosis [0, 0, 0, 1] =
      centralMoment [0, 0, 0, 1] 4 / centralMoment [0, 0, 0, 1] 2 ^ 2 - 3 := by
  have hlen : 4 ≤ ([0, 0, 0, 1] : List ℝ).length := by simp
  have hm2 : centralMoment [0, 0, 0, 1] 2 = 3 / 16 := by
    norm_num [centralMoment]
  have hge : eps ≤ centralMoment [0, 0, 0, 1] 2 := by
    rw [hm2, eps]; norm_num
  exact ⟨⟨hlen, hge⟩, ((compute_kurtosis_spec [0, 0, 0, 1]).2 hlen).2 hge⟩

/-- **C8.** On a non-empty constant window of value `v`: the RMS and the
peak both equal `|v|`; the crest factor is `0` when `v = 0`, and otherwise
a finite value (in exact arithmetic it is `0` or `1`, never unbounded). -/
theorem constant_window_features (v : ℝ) (n : ℕ) (hn : 0 < n) :
    compute_rms (List.replicate n v) = |v| ∧
    compute_peak (List.replicate n v) = |v| ∧
    (v = 0 → compute_crest_factor (List.replicate n v) = 0) ∧
    (v ≠ 0 → compute_crest_factor (List.replicate n v) = 0 ∨
      compute_crest_factor (List.replicate n v) = 1) := by
  have hne : List.replicate n v ≠ [] := by
    simp [List.replicate_eq_nil_iff]; omega
  have hcast : ((List.replicate n v).length : ℝ) = n := by simp
  have hrms : compute_rms (List.replicate n v) = |v| := by
    rw [compute_rms, if_neg hne]
    have hf : (List.replicate n v).foldl (fun acc s => acc + s * s) 0 =
        (n : ℝ) * (v * v) := by
      rw [foldl_add_map (fun s => s * s), List.map_replicate, List.sum_replicate,
        nsmul_eq_mul, zero_add]
    rw [hf, hcast, mul_div_cancel_left₀ _ (by positivity : ((n : ℝ)) ≠ 0)]
    exact Real.sqrt_mul_self_eq_abs v
  have hpeak : compute_peak (List.replicate n v) = |v| := by
    rw [compute_peak, if_neg hne, foldl_max_abs_replicate, if_neg hn.ne',
      max_eq_right (abs_nonneg v)]
  refine ⟨hrms, hpeak, fun hv => ?_, fun hv => ?_⟩
  · rw [compute_crest_factor, if_pos]
    rw [hrms, hv, abs_zero, eps]; norm_num
  · by_cases hsmall : compute_rms (List.replicate n v) < eps
    · left; rw [compute_crest_factor, if_pos hsmall]
    · right
      rw [compute_crest_factor, if_neg hsmall, hrms, hpeak,
        div_self (abs_ne_zero.mpr hv)]

/-- Witness for **C8** at `v = 2`, `n = 1`. -/
theorem constant_window_features_witness :
    0 < 1 ∧
    (compute_rms (List.replicate 1 (2 : ℝ)) = |(2 : ℝ)| ∧
      compute_peak (List.replicate 1 (2 : ℝ)) = |(2 : ℝ)| ∧
      ((2 : ℝ) = 0 → compute_crest_factor (List.replicate 1 (2 : ℝ)) = 0) ∧
      ((2 : ℝ) ≠ 0 → compute_crest_factor (List.replicate 1 (2 : ℝ)) = 0 ∨
        compute_crest_factor (List.replicate 1 (2 : ℝ)) = 1)) :=
  ⟨Nat.one_pos, constant_window_features 2 1 Nat.one_pos⟩

theorem addPower_length (bands : List (ℝ × ℝ)) (bp : List ℝ) (freq power : ℝ) :
    (addPower bands bp freq power).length = bp.length := by
  induction bands generalizing bp with
  | nil => rfl
  | cons band bands ih =>
    cases bp with
    | nil => rfl
    | cons v bp =>
      by_cases h : band.1 ≤ freq ∧ freq < band.2
      · simp [addPower, h]
      · simp [addPower, h, ih]

theorem addPower_getD (bands : List (ℝ × ℝ)) (bp : List ℝ) (freq power : ℝ)
    (b : ℕ) (hb : b < bp.length) :
    (addPower bands bp freq power).getD b 0 =
      bp.getD b 0 + if firstBandIdx bands freq = some b then power else 0 := by
  induction bands generalizing bp b with
  | nil => simp [addPower, firstBandIdx]
  | cons band bands ih =>
    cases bp with
    | nil => simp at hb
    | cons v bp =>
      by_cases h : band.1 ≤ freq ∧ freq < band.2
      · cases b with
        | zero => simp [addPower, h, firstBandIdx]
        | succ k => simp [addPower, h, firstBandIdx]
      · cases b with
        | zero => simp [addPower, h, firstBandIdx, Option.map_eq_some']
        | succ k =>
          have hk : k < bp.length := by simpa using Nat.lt_of_succ_lt_succ hb
          simp only [addPower, if_neg h, List.getD_cons_succ, firstBandIdx,
            ih bp k hk]
          congr 1
          simp [Option.map_eq_some']

theorem bandpower_foldl (l : List (ℝ × ℝ)) (bp : List ℝ) (b : ℕ)
    (hb : b < bp.length) :
    (l.foldl (fun bp mf => addPower FREQ_BANDS bp mf.2 (mf.1 * mf.1)) bp).getD b 0 =
      bp.getD b 0 +
        (l.map (fun mf =>
          if firstMatchingBand mf.2 = some b then mf.1 * mf.1 else 0)).sum := by
  induction l generalizing bp with
  | nil => simp
  | cons mf l ihl =>
    rw [List.foldl_cons, ihl _ (by rw [addPower_length]; exact hb),
      addPower_getD FREQ_BANDS bp mf.2 (mf.1 * mf.1) b hb]
    simp only [List.map_cons, List.sum_cons, firstMatchingBand]
    ring

/-- **C2 (amended).** `compute_bandpower` adds each bin's squared magnitude
to the first of the five ordered half-open bands whose interval contains
its frequency (first match wins); every bin with frequency in
`[2000, 10000)` is counted in the final band, while a bin at or above the
final band's upper edge `10000` falls in no band at all. -/
theorem compute_bandpower_first_match (magnitudes frequencies : List ℝ)
    (b : ℕ) (hb : b < 5) :
    (compute_bandpower magnitudes frequencies).getD b 0 =
      ((magnitudes.zip frequencies).map
        (fun mf => if firstMatchingBand mf.2 = some b then mf.1 * mf.1 else 0)).sum ∧
    (∀ freq : ℝ, 2000 ≤ freq → freq < 10000 → firstMatchingBand freq = some 4) ∧
    (∀ freq : ℝ, 10000 ≤ freq → firstMatchingBand freq = none) := by
  refine ⟨?_, ?_, ?_⟩
  · have hz : ∀ k : ℕ, (List.replicate FREQ_BANDS.length (0 : ℝ)).getD k 0 = 0 := by
      intro k
      rw [List.getD_eq_getElem?_getD, List.getElem?_replicate]
      split <;> rfl
    simp only [compute_bandpower]
    by_cases h : magnitudes = [] ∨ frequencies = []
    · rw [if_pos h, hz]
      rcases h with h | h <;> simp [h]
    · rw [if_neg h, bandpower_foldl _ _ b (by simp [FREQ_BANDS]; omega), hz,
        zero_add]
  · intro freq h1 h2
    have c0 : ¬((0 : ℝ) ≤ freq ∧ freq < 100) := fun hc => by linarith [hc.2]
    have c1 : ¬((100 : ℝ) ≤ freq ∧ freq < 500) := fun hc => by linarith [hc.2]
    have c2 : ¬((500 : ℝ) ≤ freq ∧ freq < 1000) := fun hc => by linarith [hc.2]
    have c3 : ¬((1000 : ℝ) ≤ freq ∧ freq < 2000) := fun hc => by linarith [hc.2]
    simp [firstMatchingBand, FREQ_BANDS, firstBandIdx, c0, c1, c2, c3, h1, h2]
  · intro freq h
    have c0 : ¬((0 : ℝ) ≤ freq ∧ freq < 100) := fun hc => by linarith [hc.2]
    have c1 : ¬((100 : ℝ) ≤ freq ∧ freq < 500) := fun hc => by linarith [hc.2]
    have c2 : ¬((500 : ℝ) ≤ freq ∧ freq < 1000) := fun hc => by linarith [hc.2]
    have c3 : ¬((1000 : ℝ) ≤ freq ∧ freq < 2000) := fun hc => by linarith [hc.2]
    have c4 : ¬((2000 : ℝ) ≤ freq ∧ freq < 10000) := fun hc => by linarith [hc.2]
    simp [firstMatchingBand, FREQ_BANDS, firstBandIdx, c0, c1, c2, c3, c4]

/-- Witness for **C2 (amended)** on the spectrum `([1], [50])` at band 0. -/
theorem compute_bandpower_first_match_witness :
    0 < 5 ∧
    ((compute_bandpower [1] [50]).getD 0 0 =
      ((([1] : List ℝ).zip ([50] : List ℝ)).map
        (fun mf => if firstMatchingBand mf.2 = some 0 then mf.1 * mf.1 else 0)).sum ∧
      (∀ freq : ℝ, 2000 ≤ freq → freq < 10000 → firstMatchingBand freq = some 4) ∧
      (∀ freq : ℝ, 10000 ≤ freq → firstMatchingBand freq = none)) :=
  ⟨by norm_num, compute_bandpower_first_match [1] [50] 0 (by norm_num)⟩

/-- **C2 counterexample.** A one-bin spectrum with magnitude `1` at
frequency `10000` Hz: the frequency is at/above the last band's lower edge
`2000`, yet `compute_bandpower` leaves every band at `0` — the bin's power
`1 * 1` is not added to the final band, because the final band's interval
is `[2000, 10000)` and `10000 < 10000` fails. -/
theorem compute_bandpower_ceiling_counterexample :
    (2000 : ℝ) ≤ 10000 ∧
    compute_bandpower [1] [10000] = [0, 0, 0, 0, 0] ∧
    (compute_bandpower [1] [10000]).getD 4 0 ≠ 1 * 1 := by
  have hcompute : compute_bandpower [1] [10000] = [0, 0, 0, 0, 0] := by
    norm_num [compute_bandpower, addPower, FREQ_BANDS, List.replicate]
  refine ⟨by norm_num, hcompute, ?_⟩
  rw [hcompute]
  norm_num

/-! ## Bit-reversal arithmetic -/

theorem revBits_lt (b : ℕ) : ∀ n, revBits n b < 2 ^ b := by
  induction b with
  | zero => intro n; simp [revBits]
  | succ b ih =>
    intro n
    have h1 := ih (n / 2)
    have h3 : 2 ^ (b + 1) = 2 ^ b + 2 ^ b := by rw [pow_succ]; omega
    show n % 2 * 2 ^ b + revBits (n / 2) b < 2 ^ (b + 1)
    rcases Nat.mod_two_eq_zero_or_one n with h | h <;> rw [h] <;> omega

theorem bitRevAux_eq (b : ℕ) : ∀ n r, bitRevAux n r b = r * 2 ^ b + revBits n b := by
  induction b with
  | zero => intro n r; simp [bitRevAux, revBits]
  | succ b ih =>
    intro n r
    show bitRevAux (n / 2) (2 * r + n % 2) b = r * 2 ^ (b + 1) + revBits n (b + 1)
    rw [ih]
    show (2 * r + n % 2) * 2 ^ b + revBits (n / 2) b =
      r * 2 ^ (b + 1) + (n % 2 * 2 ^ b + revBits (n / 2) b)
    rw [pow_succ]; ring

theorem bit_reverse_eq (n b : ℕ) : bit_reverse n b = revBits n b := by
  rw [bit_reverse, bitRevAux_eq]; simp

theorem revBits_two_mul_self {b r : ℕ} (h : r < 2 ^ b) :
    revBits r (b + 1) = 2 * revBits r b := by
  induction b generalizing r with
  | zero =>
    have hr : r = 0 := by omega
    subst hr; simp [revBits]
  | succ b ih =>
    have hr2 : r / 2 < 2 ^ b := by rw [pow_succ] at h; omega
    have l1 : revBits r (b + 2) = r % 2 * 2 ^ (b + 1) + revBits (r / 2) (b + 1) := rfl
    have l2 : revBits r (b + 1) = r % 2 * 2 ^ b + revBits (r / 2) b := rfl
    rw [l1, l2, ih hr2, pow_succ]; ring

theorem revBits_pow_add {b r : ℕ} (h : r < 2 ^ b) :
    revBits (2 ^ b + r) (b + 1) = 2 * revBits r b + 1 := by
  induction b generalizing r with
  | zero =>
    have hr : r = 0 := by omega
    subst hr; simp [revBits]
  | succ b ih =>
    have hr2 : r / 2 < 2 ^ b := by rw [pow_succ] at h; omega
    have e1 : (2 ^ (b + 1) + r) % 2 = r % 2 := by rw [pow_succ]; omega
    have e2 : (2 ^ (b + 1) + r) / 2 = 2 ^ b + r / 2 := by rw [pow_succ]; omega
    have l1 : revBits (2 ^ (b + 1) + r) (b + 2) =
        (2 ^ (b + 1) + r) % 2 * 2 ^ (b + 1) +
          revBits ((2 ^ (b + 1) + r) / 2) (b + 1) := rfl
    have l2 : revBits r (b + 1) = r % 2 * 2 ^ b + revBits (r / 2) b := rfl
    rw [l1, e1, e2, ih hr2, l2, pow_succ]; ring

theorem revBits_revBits {b : ℕ} : ∀ n, n < 2 ^ b → revBits (revBits n b) b = n := by
  induction b with
  | zero =>
    intro n h
    have hn : n = 0 := Nat.lt_one_iff.mp (by simpa using h)
    subst hn
    rfl
  | succ b ih =>
    intro n h
    have ht : n / 2 < 2 ^ b := by rw [pow_succ] at h; omega
    have hr : revBits (n / 2) b < 2 ^ b := revBits_lt b (n / 2)
    have l2 : revBits n (b + 1) = n % 2 * 2 ^ b + revBits (n / 2) b := rfl
    rcases Nat.mod_two_eq_zero_or_one n with he | he
    · rw [l2, he, zero_mul, zero_add, revBits_two_mul_self hr, ih _ ht]
      omega
    · rw [l2, he, one_mul, revBits_pow_add hr, ih _ ht]
      omega

/-! ## The bit-reversal permutation loop -/

theorem bitrevLoop_correct (b : ℕ) (x0 : ℕ → ℂ) :
    ∀ d i (A : ℕ → ℂ), 2 ^ b - i = d →
      (∀ p, p < 2 ^ b →
        ((p < i ∨ revBits p b < i) → A p = x0 (revBits p b)) ∧
        (¬(p < i ∨ revBits p b < i) → A p = x0 p)) →
      (∀ p, 2 ^ b ≤ p → A p = x0 p) →
      ∀ p, bitrevLoop b (2 ^ b) i A p =
        if p < 2 ^ b then x0 (revBits p b) else x0 p := by
  intro d
  induction d with
  | zero =>
    intro i A hd hinv hhigh p
    have hige : 2 ^ b ≤ i := by omega
    rw [bitrevLoop, dif_neg (by omega)]
    split
    · rename_i hp
      exact (hinv p hp).1 (Or.inr (lt_of_lt_of_le (revBits_lt b p) hige))
    · rename_i hp
      exact hhigh p (by omega)
  | succ d ih =>
    intro i A hd hinv hhigh p
    have hilt : i < 2 ^ b := by omega
    rw [bitrevLoop, dif_pos hilt]
    set j := bit_reverse i (fftCountBits (2 ^ b)) with hjdef
    rw [show bit_reverse i b = revBits i b from bit_reverse_eq i b]
    set A1 := if i < revBits i b then
        Function.update (Function.update A i (A (revBits i b))) (revBits i b) (A i)
      else A with hA1
    have hj : revBits i b < 2 ^ b := revBits_lt b i
    have hji : revBits (revBits i b) b = i := revBits_revBits i hilt
    have hhigh1 : ∀ p, 2 ^ b ≤ p → A1 p = x0 p := by
      intro q hq
      have hqi : q ≠ i := by omega
      have hqj : q ≠ revBits i b := by omega
      rw [hA1]
      split
      · rw [Function.update_noteq hqj, Function.update_noteq hqi]
        exact hhigh q hq
      · exact hhigh q hq
    have hinv1 : ∀ p, p < 2 ^ b →
        ((p < i + 1 ∨ revBits p b < i + 1) → A1 p = x0 (revBits p b)) ∧
        (¬(p < i + 1 ∨ revBits p b < i + 1) → A1 p = x0 p) := by
      intro q hq
      by_cases hij : i < revBits i b
      · -- a genuine swap happened
        rcases eq_or_ne q i with rfl | hqi
        · constructor
          · intro _
            rw [hA1, if_pos hij, Function.update_noteq (by omega),
              Function.update_same]
            have : A (revBits q b) = x0 (revBits q b) :=
              (hinv (revBits q b) hj).2 (by omega)
            rw [this]
          · intro hcon; exact absurd (Or.inl (by omega)) hcon
        · rcases eq_or_ne q (revBits i b) with rfl | hqj
          · constructor
            · intro _
              rw [hA1, if_pos hij, Function.update_same]
              have : A i = x0 i := (hinv i hilt).2 (by omega)
              rw [this, hji]
            · intro hcon
              exact absurd (Or.inr (by omega)) hcon
          · have hA1q : A1 q = A q := by
              rw [hA1, if_pos hij, Function.update_noteq hqj,
                Function.update_noteq hqi]
            have hrevne : revBits q b ≠ i := by
              intro hcon
              apply hqj
              rw [← hcon] at hji ⊢
              rw [revBits_revBits q hq]
            constructor
            · intro hc
              rw [hA1q]
              refine (hinv q hq).1 ?_
              rcases hc with hc | hc
              · exact Or.inl (by omega)
              · exact Or.inr (by omega)
            · intro hc
              rw [hA1q]
              exact (hinv q hq).2 (by omega)
      · -- no swap: A1 = A
        have hA1q : A1 q = A q := by rw [hA1, if_neg hij]
        have hjle : revBits i b ≤ i := by omega
        constructor
        · intro hc
          rw [hA1q]
          rcases eq_or_ne q i with rfl | hqi
          · rcases lt_or_eq_of_le hjle with hlt | heq
            · exact (hinv q hq).1 (Or.inr hlt)
            · have : A q = x0 q := (hinv q hq).2 (by omega)
              rw [this, heq]
          · have hrevne : revBits q b ≠ i ∨ q = revBits i b := by
              by_cases hcon : revBits q b = i
              · right
                rw [← hcon, revBits_revBits q hq]
              · left; exact hcon
            rcases hrevne with hne | rfl
            · refine (hinv q hq).1 ?_
              rcases hc with hc | hc
              · exact Or.inl (by omega)
              · exact Or.inr (by omega)
            · -- q = revBits i b ≤ i, q ≠ i, so q < i: already touched
              exact (hinv _ hq).1 (Or.inl (by omega))
        · intro hc
          rw [hA1q]
          exact (hinv q hq).2 (by omega)
    exact ih (i + 1) A1 (by omega) hinv1 hhigh1 p

theorem bitrevLoop_eq (b : ℕ) (x : ℕ → ℂ) (p : ℕ) :
    bitrevLoop b (2 ^ b) 0 x p = if p < 2 ^ b then x (revBits p b) else x p := by
  refine bitrevLoop_correct b x (2 ^ b) 0 x (Nat.sub_zero _) ?_ (fun _ _ => rfl) p
  intro q hq
  exact ⟨fun hc => absurd hc (by omega), fun _ => rfl⟩

/-! ## DFT decimation and twiddle-factor algebra -/

theorem sum_range_two_mul (L : ℕ) (f : ℕ → ℂ) :
    ∑ m ∈ Finset.range (2 * L), f m =
      ∑ m ∈ Finset.range L, f (2 * m) + ∑ m ∈ Finset.range L, f (2 * m + 1) := by
  induction L with
  | zero => simp
  | succ L ih =>
    have h2 : 2 * (L + 1) = 2 * L + 1 + 1 := by ring
    rw [h2, Finset.sum_range_succ, Finset.sum_range_succ, Finset.sum_range_succ,
      Finset.sum_range_succ, ih]
    ring

theorem exp_term_even (L k m : ℕ) (hL : 0 < L) :
    Complex.exp (-(2 * (Real.pi : ℂ) * Complex.I) * k * (2 * m : ℕ) / (2 * L : ℕ)) =
      Complex.exp (-(2 * (Real.pi : ℂ) * Complex.I) * k * m / L) := by
  congr 1
  have hL' : (L : ℂ) ≠ 0 := Nat.cast_ne_zero.mpr hL.ne'
  push_cast
  field_simp
  ring

theorem exp_term_odd (L k m : ℕ) (hL : 0 < L) :
    Complex.exp (-(2 * (Real.pi : ℂ) * Complex.I) * k * (2 * m + 1 : ℕ) / (2 * L : ℕ)) =
      twiddle (2 * L) ^ k *
        Complex.exp (-(2 * (Real.pi : ℂ) * Complex.I) * k * m / L) := by
  rw [twiddle, ← Complex.exp_nat_mul, ← Complex.exp_add]
  congr 1
  have hL' : (L : ℂ) ≠ 0 := Nat.cast_ne_zero.mpr hL.ne'
  push_cast
  field_simp
  ring

theorem exp_term_add_len (L k m : ℕ) (hL : 0 < L) :
    Complex.exp (-(2 * (Real.pi : ℂ) * Complex.I) * (k + L : ℕ) * m / L) =
      Complex.exp (-(2 * (Real.pi : ℂ) * Complex.I) * k * m / L) := by
  have hL' : (L : ℂ) ≠ 0 := Nat.cast_ne_zero.mpr hL.ne'
  have key : Complex.exp ((-(m : ℤ) : ℂ) * (2 * (Real.pi : ℂ) * Complex.I)) = 1 := by
    exact_mod_cast Complex.exp_int_mul_two_pi_mul_I (-(m : ℤ))
  have harg : -(2 * (Real.pi : ℂ) * Complex.I) * (k + L : ℕ) * m / L =
      -(2 * (Real.pi : ℂ) * Complex.I) * k * m / L +
        (-(m : ℤ) : ℂ) * (2 * (Real.pi : ℂ) * Complex.I) := by
    push_cast
    field_simp
    ring
  rw [harg, Complex.exp_add, key, mul_one]

theorem twiddle_pow_len (L : ℕ) (hL : 0 < L) : twiddle (2 * L) ^ L = -1 := by
  have hL' : (L : ℂ) ≠ 0 := Nat.cast_ne_zero.mpr hL.ne'
  rw [twiddle, ← Complex.exp_nat_mul]
  have harg : (L : ℂ) * (-(2 * (Real.pi : ℂ) / ((2 * L : ℕ) : ℂ)) * Complex.I) =
      -((Real.pi : ℂ) * Complex.I) := by
    push_cast
    field_simp
    ring
  rw [harg, Complex.exp_neg, Complex.exp_pi_mul_I]
  norm_num

theorem twiddle_pow_add_len (L j : ℕ) (hL : 0 < L) :
    twiddle (2 * L) ^ (j + L) = -(twiddle (2 * L) ^ j) := by
  rw [pow_add, twiddle_pow_len L hL]
  ring

theorem dft_two_mul (L : ℕ) (hL : 0 < L) (z : ℕ → ℂ) (j : ℕ) :
    dft (2 * L) z j =
      dft L (fun m => z (2 * m)) j +
        twiddle (2 * L) ^ j * dft L (fun m => z (2 * m + 1)) j := by
  unfold dft
  rw [sum_range_two_mul L (fun m =>
    z m * Complex.exp (-(2 * (Real.pi : ℂ) * Complex.I) * j * m / (2 * L : ℕ)))]
  have he : ∀ m ∈ Finset.range L,
      z (2 * m) *
        Complex.exp (-(2 * (Real.pi : ℂ) * Complex.I) * j * (2 * m : ℕ) / (2 * L : ℕ)) =
      z (2 * m) * Complex.exp (-(2 * (Real.pi : ℂ) * Complex.I) * j * m / L) :=
    fun m _ => by rw [exp_term_even L j m hL]
  have ho : ∀ m ∈ Finset.range L,
      z (2 * m + 1) *
        Complex.exp
          (-(2 * (Real.pi : ℂ) * Complex.I) * j * (2 * m + 1 : ℕ) / (2 * L : ℕ)) =
      twiddle (2 * L) ^ j *
        (z (2 * m + 1) *
          Complex.exp (-(2 * (Real.pi : ℂ) * Complex.I) * j * m / L)) :=
    fun m _ => by rw [exp_term_odd L j m hL]; ring
  rw [Finset.sum_congr rfl he, Finset.sum_congr rfl ho, ← Finset.mul_sum]

theorem dft_add_len (L : ℕ) (hL : 0 < L) (f : ℕ → ℂ) (j : ℕ) :
    dft L f (j + L) = dft L f j := by
  unfold dft
  exact Finset.sum_congr rfl fun m _ => by rw [exp_term_add_len L j m hL]

/-! ## The butterfly loops -/

theorem fftInner_spec (len : ℕ) (wlen : ℂ) (i : ℕ) :
    ∀ c j0 (A : ℕ → ℂ), len / 2 - j0 = c →
      (∀ j, j0 ≤ j → j < len / 2 →
        fftInner len wlen i j0 (wlen ^ j0) A (i + j) =
          A (i + j) + wlen ^ j * A (i + j + len / 2) ∧
        fftInner len wlen i j0 (wlen ^ j0) A (i + j + len / 2) =
          A (i + j) - wlen ^ j * A (i + j + len / 2)) ∧
      (∀ q, (∀ j, j0 ≤ j → j < len / 2 → q ≠ i + j ∧ q ≠ i + j + len / 2) →
        fftInner len wlen i j0 (wlen ^ j0) A q = A q) := by
  intro c
  induction c with
  | zero =>
    intro j0 A hc
    constructor
    · intro j hj1 hj2
      exact absurd hj2 (by omega)
    · intro q hq
      rw [fftInner, dif_neg (by omega)]
  | succ c ih =>
    intro j0 A hc
    have hj0 : j0 < len / 2 := by omega
    set u := A (i + j0) with hu
    set t := wlen ^ j0 * A (i + j0 + len / 2) with ht
    set A1 := Function.update
        (Function.update A (i + j0) (u + t)) (i + j0 + len / 2) (u - t) with hA1def
    have hunfold : fftInner len wlen i j0 (wlen ^ j0) A =
        fftInner len wlen i (j0 + 1) (wlen ^ (j0 + 1)) A1 := by
      rw [fftInner, dif_pos hj0, ← pow_succ]
    have hne0 : i + j0 ≠ i + j0 + len / 2 := by omega
    have hA1_lo : A1 (i + j0) = u + t := by
      rw [hA1def, Function.update_noteq hne0, Function.update_same]
    have hA1_hi : A1 (i + j0 + len / 2) = u - t := by
      rw [hA1def, Function.update_same]
    have hA1_other : ∀ q, q ≠ i + j0 → q ≠ i + j0 + len / 2 → A1 q = A q := by
      intro q h1 h2
      rw [hA1def, Function.update_noteq h2, Function.update_noteq h1]
    have IH := ih (j0 + 1) A1 (by omega)
    constructor
    · intro j hj1 hj2
      rcases eq_or_lt_of_le hj1 with rfl | hjgt
      · have huntouched_lo : ∀ j', j0 + 1 ≤ j' → j' < len / 2 →
            i + j0 ≠ i + j' ∧ i + j0 ≠ i + j' + len / 2 := by
          intro j' h1 h2; omega
        have huntouched_hi : ∀ j', j0 + 1 ≤ j' → j' < len / 2 →
            i + j0 + len / 2 ≠ i + j' ∧ i + j0 + len / 2 ≠ i + j' + len / 2 := by
          intro j' h1 h2; omega
        rw [hunfold]
        exact ⟨by rw [IH.2 _ huntouched_lo, hA1_lo],
               by rw [IH.2 _ huntouched_hi, hA1_hi]⟩
      · have h1 : i + j ≠ i + j0 := by omega
        have h2 : i + j ≠ i + j0 + len / 2 := by omega
        have h3 : i + j + len / 2 ≠ i + j0 := by omega
        have h4 : i + j + len / 2 ≠ i + j0 + len / 2 := by omega
        rw [hunfold]
        constructor
        · rw [(IH.1 j (by omega) hj2).1, hA1_other _ h1 h2, hA1_other _ h3 h4]
        · rw [(IH.1 j (by omega) hj2).2, hA1_other _ h1 h2, hA1_other _ h3 h4]
    · intro q hq
      have hq0 := hq j0 (le_refl _) hj0
      rw [hunfold, IH.2 q (fun j' h1 h2 => hq j' (by omega) h2),
        hA1_other q hq0.1 hq0.2]

theorem fftInner_butterfly (len : ℕ) (wlen : ℂ) (i : ℕ) (A : ℕ → ℂ) (j : ℕ)
    (hj : j < len / 2) :
    fftInner len wlen i 0 1 A (i + j) =
      A (i + j) + wlen ^ j * A (i + j + len / 2) ∧
    fftInner len wlen i 0 1 A (i + j + len / 2) =
      A (i + j) - wlen ^ j * A (i + j + len / 2) := by
  have h := (fftInner_spec len wlen i (len / 2 - 0) 0 A rfl).1 j (Nat.zero_le _) hj
  rwa [pow_zero] at h

theorem fftInner_frame (len : ℕ) (wlen : ℂ) (i : ℕ) (A : ℕ → ℂ) (q : ℕ)
    (hq : q < i ∨ i + len ≤ q) :
    fftInner len wlen i 0 1 A q = A q := by
  have h := (fftInner_spec len wlen i (len / 2 - 0) 0 A rfl).2 q
    (fun j h1 h2 => by omega)
  rwa [pow_zero] at h

theorem fftInner_congr (len : ℕ) (wlen : ℂ) (i : ℕ) :
    ∀ c j0 (w : ℂ) (A B : ℕ → ℂ), len / 2 - j0 = c →
      (∀ p, i ≤ p → p < i + len → A p = B p) →
      ∀ q, i ≤ q → q < i + len →
        fftInner len wlen i j0 w A q = fftInner len wlen i j0 w B q := by
  intro c
  induction c with
  | zero =>
    intro j0 w A B hc hAB q hq1 hq2
    rw [fftInner, dif_neg (by omega), fftInner, dif_neg (by omega)]
    exact hAB q hq1 hq2
  | succ c ih =>
    intro j0 w A B hc hAB q hq1 hq2
    have hj0 : j0 < len / 2 := by omega
    rw [fftInner, dif_pos hj0]
    conv_rhs => rw [fftInner, dif_pos hj0]
    refine ih (j0 + 1) (w * wlen) _ _ (by omega) (fun p hp1 hp2 => ?_) q hq1 hq2
    have hin_lo : i ≤ i + j0 ∧ i + j0 < i + len := by omega
    have hin_hi : i ≤ i + j0 + len / 2 ∧ i + j0 + len / 2 < i + len := by omega
    rcases eq_or_ne p (i + j0 + len / 2) with rfl | hne1
    · rw [Function.update_same, Function.update_same,
        hAB (i + j0) hin_lo.1 hin_lo.2, hAB (i + j0 + len / 2) hin_hi.1 hin_hi.2]
    · rw [Function.update_noteq hne1, Function.update_noteq hne1]
      rcases eq_or_ne p (i + j0) with rfl | hne2
      · rw [Function.update_same, Function.update_same,
          hAB (i + j0) hin_lo.1 hin_lo.2, hAB (i + j0 + len / 2) hin_hi.1 hin_hi.2]
      · rw [Function.update_noteq hne2, Function.update_noteq hne2]
        exact hAB p hp1 hp2

/-! ## The block loop -/

theorem fftBlocks_spec (n len : ℕ) (hl : 0 < len) (wlen : ℂ) :
    ∀ c i0 (A : ℕ → ℂ), n - i0 = c →
      (∀ q, q < i0 → fftBlocks n len hl wlen i0 A q = A q) ∧
      (∀ t q, i0 + t * len ≤ q → q < i0 + t * len + len → i0 + t * len < n →
        fftBlocks n len hl wlen i0 A q =
          fftInner len wlen (i0 + t * len) 0 1 A q) := by
  intro c
  induction c using Nat.strong_induction_on with
  | _ c ih =>
    intro i0 A hc
    by_cases hi0 : i0 < n
    · have hunfold : fftBlocks n len hl wlen i0 A =
          fftBlocks n len hl wlen (i0 + len) (fftInner len wlen i0 0 1 A) := by
        rw [fftBlocks, dif_pos hi0]
      have IH := ih (n - (i0 + len)) (by omega) (i0 + len)
        (fftInner len wlen i0 0 1 A) rfl
      constructor
      · intro q hq
        rw [hunfold, IH.1 q (by omega), fftInner_frame len wlen i0 A q (Or.inl hq)]
      · intro t q hq1 hq2 hq3
        cases t with
        | zero =>
          have e0 : i0 + 0 * len = i0 := by ring
          rw [e0] at hq1 hq2 hq3
          rw [hunfold, IH.1 q (by omega), e0]
        | succ v =>
          have e1 : i0 + (v + 1) * len = i0 + len + v * len := by ring
          rw [e1] at hq1 hq2 hq3
          rw [hunfold, IH.2 v q hq1 hq2 hq3, e1]
          refine fftInner_congr len wlen (i0 + len + v * len) (len / 2 - 0) 0 1 _ _
            rfl (fun p hp1 hp2 => ?_) q hq1 hq2
          refine fftInner_frame len wlen i0 A p (Or.inr ?_)
          exact le_trans (Nat.le_add_right (i0 + len) (v * len)) hp1
    · have hunfold : fftBlocks n len hl wlen i0 A = A := by
        rw [fftBlocks, dif_neg hi0]
      constructor
      · intro q hq; rw [hunfold]
      · intro t q hq1 hq2 hq3
        exact absurd (lt_of_le_of_lt (Nat.le_add_right i0 (t * len)) hq3) hi0

/-! ## The stage invariant -/

theorem stageSpec_zero (K : ℕ) (x : ℕ → ℂ) (p : ℕ) :
    stageSpec K 0 x p = x (revBits p K) := by
  unfold stageSpec dft
  rw [pow_zero, Nat.div_one, Nat.mod_one, Finset.sum_range_one]
  simp

theorem stageSpec_last (K : ℕ) (x : ℕ → ℂ) (p : ℕ) (hp : p < 2 ^ K) :
    stageSpec K K x p = dft (2 ^ K) x p := by
  unfold stageSpec
  rw [Nat.div_eq_of_lt hp, Nat.mod_eq_of_lt hp, Nat.sub_self]
  congr 1
  funext m
  norm_num [revBits]

theorem fftCountBits_pow (K : ℕ) : fftCountBits (2 ^ K) = K := by
  induction K with
  | zero =>
    rw [fftCountBits]
    norm_num
  | succ K ih =>
    rw [fftCountBits, if_pos (Nat.one_lt_two_pow_iff.mpr (by omega))]
    have h2 : 2 ^ (K + 1) / 2 = 2 ^ K := by rw [pow_succ]; omega
    rw [h2, ih]

theorem stage_step (K s : ℕ) (hs : s < K) (hl : 0 < 2 ^ (s + 1)) (x A : ℕ → ℂ)
    (hA : ∀ p, p < 2 ^ K → A p = stageSpec K s x p) :
    ∀ p, p < 2 ^ K →
      fftBlocks (2 ^ K) (2 ^ (s + 1)) hl (twiddle (2 ^ (s + 1))) 0 A p =
        stageSpec K (s + 1) x p := by
  have hLpos : 0 < 2 ^ s := pow_pos (by norm_num) s
  have hlen2L : 2 ^ (s + 1) = 2 * 2 ^ s := by rw [pow_succ]; ring
  have hhalf : 2 ^ (s + 1) / 2 = 2 ^ s := by omega
  have hKs : K - s = K - (s + 1) + 1 := by omega
  have hAval : ∀ r j, j < 2 ^ s → 2 ^ s * r + j < 2 ^ K →
      A (2 ^ s * r + j) =
        dft (2 ^ s) (fun m => x (m * 2 ^ (K - s) + revBits r (K - s))) j := by
    intro r j hj hlt
    rw [hA _ hlt]
    unfold stageSpec
    rw [Nat.mul_add_div hLpos, Nat.div_eq_of_lt hj, add_zero, Nat.mul_add_mod,
      Nat.mod_eq_of_lt hj]
  intro p hp
  obtain ⟨tq, j', hj'lt, rfl⟩ :
      ∃ t j, j < 2 ^ (s + 1) ∧ p = 2 ^ (s + 1) * t + j :=
    ⟨p / 2 ^ (s + 1), p % 2 ^ (s + 1), Nat.mod_lt p hl, (Nat.div_add_mod p _).symm⟩
  obtain ⟨c, hcK⟩ : 2 ^ (s + 1) ∣ 2 ^ K := pow_dvd_pow 2 (by omega)
  have htc : tq < c := by
    have h2 : 2 ^ (s + 1) * tq + j' < 2 ^ (s + 1) * c := by rw [← hcK]; exact hp
    by_contra hcon
    push_neg at hcon
    have h3 : 2 ^ (s + 1) * c ≤ 2 ^ (s + 1) * tq := Nat.mul_le_mul_left _ hcon
    omega
  have hblockend : 2 ^ (s + 1) * tq + 2 ^ (s + 1) ≤ 2 ^ K := by
    have h3 : 2 ^ (s + 1) * (tq + 1) ≤ 2 ^ (s + 1) * c := Nat.mul_le_mul_left _ htc
    have h4 : 2 ^ (s + 1) * (tq + 1) = 2 ^ (s + 1) * tq + 2 ^ (s + 1) := by ring
    omega
  have hcomm : tq * 2 ^ (s + 1) = 2 ^ (s + 1) * tq := Nat.mul_comm _ _
  have hb := (fftBlocks_spec (2 ^ K) (2 ^ (s + 1)) hl (twiddle (2 ^ (s + 1)))
      (2 ^ K - 0) 0 A rfl).2 tq (2 ^ (s + 1) * tq + j')
      (by omega) (by omega) (by omega)
  rw [hb, zero_add]
  have hdivp : (2 ^ (s + 1) * tq + j') / 2 ^ (s + 1) = tq := by
    rw [Nat.mul_add_div hl, Nat.div_eq_of_lt hj'lt, add_zero]
  have hmodp : (2 ^ (s + 1) * tq + j') % 2 ^ (s + 1) = j' := by
    rw [Nat.mul_add_mod, Nat.mod_eq_of_lt hj'lt]
  have hrhs : stageSpec K (s + 1) x (2 ^ (s + 1) * tq + j') =
      dft (2 ^ (s + 1))
        (fun m => x (m * 2 ^ (K - (s + 1)) + revBits tq (K - (s + 1)))) j' := by
    unfold stageSpec
    rw [hdivp, hmodp]
  rw [hrhs]
  have heven : (fun m => x (2 * m * 2 ^ (K - (s + 1)) + revBits tq (K - (s + 1)))) =
      fun m => x (m * 2 ^ (K - s) + revBits (2 * tq) (K - s)) := by
    funext m
    have e2 : revBits (2 * tq) (K - s) = revBits tq (K - (s + 1)) := by
      rw [hKs]
      have hunf : revBits (2 * tq) (K - (s + 1) + 1) =
          2 * tq % 2 * 2 ^ (K - (s + 1)) + revBits (2 * tq / 2) (K - (s + 1)) := rfl
      have h1 : 2 * tq % 2 = 0 := by omega
      have h2 : 2 * tq / 2 = tq := by omega
      rw [hunf, h1, h2, zero_mul, zero_add]
    have e1 : m * 2 ^ (K - s) = 2 * m * 2 ^ (K - (s + 1)) := by
      rw [hKs, pow_succ]; ring
    rw [e1, e2]
  have hodd : (fun m =>
        x ((2 * m + 1) * 2 ^ (K - (s + 1)) + revBits tq (K - (s + 1)))) =
      fun m => x (m * 2 ^ (K - s) + revBits (2 * tq + 1) (K - s)) := by
    funext m
    have e4 : revBits (2 * tq + 1) (K - s) =
        2 ^ (K - (s + 1)) + revBits tq (K - (s + 1)) := by
      rw [hKs]
      have hunf : revBits (2 * tq + 1) (K - (s + 1) + 1) =
          (2 * tq + 1) % 2 * 2 ^ (K - (s + 1)) +
            revBits ((2 * tq + 1) / 2) (K - (s + 1)) := rfl
      have h1 : (2 * tq + 1) % 2 = 1 := by omega
      have h2 : (2 * tq + 1) / 2 = tq := by omega
      rw [hunf, h1, h2, one_mul]
    have e3 : m * 2 ^ (K - s) + revBits (2 * tq + 1) (K - s) =
        (2 * m + 1) * 2 ^ (K - (s + 1)) + revBits tq (K - (s + 1)) := by
      rw [e4, hKs, pow_succ]; ring
    rw [e3]
  by_cases hface : j' < 2 ^ s
  · -- lower half of the block
    have hbf := (fftInner_butterfly (2 ^ (s + 1)) (twiddle (2 ^ (s + 1)))
        (tq * 2 ^ (s + 1)) A j' (by omega)).1
    rw [hhalf] at hbf
    have hposition : tq * 2 ^ (s + 1) + j' = 2 ^ (s + 1) * tq + j' := by omega
    rw [← hposition]
    rw [hbf]
    have he1 : tq * 2 ^ (s + 1) + j' = 2 ^ s * (2 * tq) + j' := by
      rw [hlen2L]; ring
    have he2 : 2 ^ s * (2 * tq) + j' + 2 ^ s = 2 ^ s * (2 * tq + 1) + j' := by ring
    rw [he1, he2]
    rw [hAval (2 * tq) j' hface (by omega), hAval (2 * tq + 1) j' hface (by omega)]
    rw [hlen2L, dft_two_mul (2 ^ s) hLpos _ j']
    rw [heven, hodd]
  · -- upper half of the block
    obtain ⟨j, rfl⟩ : ∃ j, j' = j + 2 ^ s := ⟨j' - 2 ^ s, by omega⟩
    have hjlt : j < 2 ^ s := by omega
    have hbf := (fftInner_butterfly (2 ^ (s + 1)) (twiddle (2 ^ (s + 1)))
        (tq * 2 ^ (s + 1)) A j (by omega)).2
    rw [hhalf] at hbf
    have hposition : tq * 2 ^ (s + 1) + j + 2 ^ s = 2 ^ (s + 1) * tq + (j + 2 ^ s) := by
      omega
    rw [← hposition]
    rw [hbf]
    have he1 : tq * 2 ^ (s + 1) + j = 2 ^ s * (2 * tq) + j := by
      rw [hlen2L]; ring
    have he2 : 2 ^ s * (2 * tq) + j + 2 ^ s = 2 ^ s * (2 * tq + 1) + j := by ring
    rw [he1, he2]
    rw [hAval (2 * tq) j hjlt (by omega), hAval (2 * tq + 1) j hjlt (by omega)]
    rw [hlen2L, dft_two_mul (2 ^ s) hLpos _ (j + 2 ^ s),
      dft_add_len (2 ^ s) hLpos _ j, dft_add_len (2 ^ s) hLpos _ j,
      twiddle_pow_add_len (2 ^ s) j hLpos]
    rw [heven, hodd]
    ring

theorem fftStages_correct (K : ℕ) (x : ℕ → ℂ) :
    ∀ d s len (hl : 0 < len) (A : ℕ → ℂ), len = 2 ^ (s + 1) → s + d = K →
      (∀ p, p < 2 ^ K → A p = stageSpec K s x p) →
      ∀ p, p < 2 ^ K → fftStages (2 ^ K) len hl A p = dft (2 ^ K) x p := by
  intro d
  induction d with
  | zero =>
    intro s len hl A hlen hsd hA p hp
    have hsK : s = K := by omega
    subst hsK
    subst hlen
    rw [fftStages, dif_neg (not_le.mpr (Nat.pow_lt_pow_succ (by norm_num)))]
    rw [hA p hp, stageSpec_last _ _ _ hp]
  | succ d ih =>
    intro s len hl A hlen hsd hA p hp
    subst hlen
    have hle : 2 ^ (s + 1) ≤ 2 ^ K := Nat.pow_le_pow_right (by norm_num) (by omega)
    rw [fftStages, dif_pos hle]
    have hstep := stage_step K s (by omega) hl x A hA
    have hlen2 : 2 * 2 ^ (s + 1) = 2 ^ (s + 1 + 1) := by rw [pow_succ]; ring
    exact ih (s + 1) (2 * 2 ^ (s + 1)) (by positivity) _ hlen2 (by omega) hstep p hp

theorem fft_eq_dft_aux (K : ℕ) (x : ℕ → ℂ) (k : ℕ) (hk : k < 2 ^ K) :
    fft_recursive (2 ^ K) x k = dft (2 ^ K) x k := by
  rcases Nat.eq_zero_or_pos K with rfl | hK
  · have hk0 : k = 0 := by simpa using hk
    subst hk0
    rw [fft_recursive, if_pos (by norm_num)]
    unfold dft
    rw [pow_zero, Finset.sum_range_one]
    simp
  · have h1lt : 1 < 2 ^ K := Nat.one_lt_two_pow_iff.mpr (by omega)
    rw [fft_recursive, if_neg (by omega), fftCountBits_pow]
    refine fftStages_correct K x K 0 2 (by norm_num) _ (by norm_num) (by omega)
      ?_ k hk
    intro p hp
    rw [bitrevLoop_eq K x p, if_pos hp]
    exact (stageSpec_zero K x p).symm

/-- **C5.** On every power-of-two-length complex input, the iterative
in-place transform of the source — bit-reversal permutation over
`log2 N` bits followed by butterfly stages of block sizes `2, 4, …, N`
with twiddle factor `e^(-2πi/len)` accumulated multiplicatively — computes
the reference forward DFT `X[k] = Σ_n x[n]·e^(-2πi·k·n/N)`, over exact
arithmetic. -/
theorem fft_recursive_matches_dft (K : ℕ) (x : ℕ → ℂ) (k : ℕ) (hk : k < 2 ^ K) :
    fft_recursive (2 ^ K) x k = dft (2 ^ K) x k :=
  fft_eq_dft_aux K x k hk

/-- Witness for **C5** at `N = 2`, the all-ones input, bin 0. -/
theorem fft_recursive_matches_dft_witness :
    0 < 2 ^ 1 ∧
    fft_recursive (2 ^ 1) (fun _ => 1) 0 = dft (2 ^ 1) (fun _ => 1) 0 :=
  ⟨by norm_num, fft_recursive_matches_dft 1 (fun _ => 1) 0 (by norm_num)⟩

/-! ## Structure of the compute_fft output -/

theorem nextPow2Aux_spec : ∀ c n p (hp : 0 < p), n - p = c → (∃ j, p = 2 ^ j) →
    (∃ k, nextPow2Aux n p hp = 2 ^ k) ∧ n ≤ nextPow2Aux n p hp := by
  intro c
  induction c using Nat.strong_induction_on with
  | _ c ih =>
    intro n p hp hc hpow
    by_cases h : p < n
    · have hstep : nextPow2Aux n p hp = nextPow2Aux n (2 * p) (by omega) := by
        rw [nextPow2Aux, dif_pos h]
      rw [hstep]
      refine ih (n - 2 * p) (by omega) n (2 * p) (by omega) rfl ?_
      obtain ⟨j, rfl⟩ := hpow
      exact ⟨j + 1, by rw [pow_succ]; ring⟩
    · have hstop : nextPow2Aux n p hp = p := by rw [nextPow2Aux, dif_neg h]
      rw [hstop]
      exact ⟨hpow, by omega⟩

theorem next_power_of_2_spec (m : ℕ) :
    (∃ k, next_power_of_2 m = 2 ^ k) ∧ m ≤ next_power_of_2 m :=
  nextPow2Aux_spec (m - 1) m 1 (by omega) rfl ⟨0, rfl⟩

theorem getD_map_range (h : ℕ) (f : ℕ → ℝ) (k : ℕ) (hk : k < h) :
    ((List.range h).map f).getD k 0 = f k := by
  rw [List.getD_eq_getElem?_getD, List.getElem?_map, List.getElem?_range hk]
  rfl

theorem compute_fft_eq (sample_rate : ℝ) (signal : List ℝ) (hne : signal ≠ []) :
    compute_fft sample_rate signal =
      ((match (List.range (next_power_of_2 signal.length / 2)).map
          (fun i => Complex.abs (fft_recursive (next_power_of_2 signal.length)
            (signalPad signal) i) * 2 / (next_power_of_2 signal.length : ℝ)) with
        | [] => ([] : List ℝ)
        | m0 :: rest => m0 / 2 :: rest),
       (List.range (next_power_of_2 signal.length / 2)).map
         (fun (i : ℕ) =>
           (i : ℝ) * (sample_rate / (next_power_of_2 signal.length : ℝ)))) := by
  simp only [compute_fft, if_neg hne]

/-- **C1.** On a non-empty window, `compute_fft` returns exactly `N/2`
magnitude/frequency pairs, where `N = next_power_of_2 (length)` is the
zero-padded power-of-two length; bin `k ≥ 1` has magnitude `|X[k]|·2/N`,
the DC bin has magnitude `|X[0]|/N` (doubled and halved again), and bin `k`
has frequency `k·(sample_rate/N)`, with `X` the forward DFT of the padded
signal. -/
theorem compute_fft_output_spec (sample_rate : ℝ) (signal : List ℝ)
    (hne : signal ≠ []) :
    (∃ k, next_power_of_2 signal.length = 2 ^ k) ∧
    signal.length ≤ next_power_of_2 signal.length ∧
    (compute_fft sample_rate signal).1.length =
      next_power_of_2 signal.length / 2 ∧
    (compute_fft sample_rate signal).2.length =
      next_power_of_2 signal.length / 2 ∧
    (∀ k, 1 ≤ k → k < next_power_of_2 signal.length / 2 →
      (compute_fft sample_rate signal).1.getD k 0 =
        Complex.abs (dft (next_power_of_2 signal.length) (signalPad signal) k) *
          2 / (next_power_of_2 signal.length : ℝ)) ∧
    (0 < next_power_of_2 signal.length / 2 →
      (compute_fft sample_rate signal).1.getD 0 0 =
        Complex.abs (dft (next_power_of_2 signal.length) (signalPad signal) 0) /
          (next_power_of_2 signal.length : ℝ)) ∧
    (∀ k, k < next_power_of_2 signal.length / 2 →
      (compute_fft sample_rate signal).2.getD k 0 =
        (k : ℝ) * (sample_rate / (next_power_of_2 signal.length : ℝ))) := by
  obtain ⟨⟨K, hK⟩, hge⟩ := next_power_of_2_spec signal.length
  have hNpos : 0 < next_power_of_2 signal.length := by rw [hK]; positivity
  have hNne : ((next_power_of_2 signal.length : ℝ)) ≠ 0 := by
    exact_mod_cast hNpos.ne'
  have hfft : ∀ i, i < next_power_of_2 signal.length →
      fft_recursive (next_power_of_2 signal.length) (signalPad signal) i =
        dft (next_power_of_2 signal.length) (signalPad signal) i := by
    intro i hi
    rw [hK] at hi ⊢
    exact fft_eq_dft_aux K (signalPad signal) i hi
  have hhalf_le : next_power_of_2 signal.length / 2 ≤ next_power_of_2 signal.length := by
    omega
  rw [compute_fft_eq sample_rate signal hne]
  rcases hr : (List.range (next_power_of_2 signal.length / 2)).map
      (fun i => Complex.abs (fft_recursive (next_power_of_2 signal.length)
        (signalPad signal) i) * 2 / (next_power_of_2 signal.length : ℝ))
    with _ | ⟨m0, rest⟩
  · -- the spectrum is empty: N/2 = 0
    have hz : next_power_of_2 signal.length / 2 = 0 := by
      have := congrArg List.length hr
      simpa using this
    refine ⟨⟨K, hK⟩, hge, by simp [hz],
      by rw [List.length_map, List.length_range], ?_, ?_, ?_⟩
    · intro k hk1 hk2; omega
    · intro hcon; omega
    · intro k hk; omega
  · -- the spectrum is non-empty
    have hlenM : rest.length + 1 = next_power_of_2 signal.length / 2 := by
      have := congrArg List.length hr
      simpa using this.symm
    have hpos : 0 < next_power_of_2 signal.length / 2 := by omega
    refine ⟨⟨K, hK⟩, hge, ?_,
      by rw [List.length_map, List.length_range], ?_, ?_, ?_⟩
    · simpa using hlenM
    · intro k hk1 hk2
      obtain ⟨j, rfl⟩ : ∃ j, k = j + 1 := ⟨k - 1, by omega⟩
      have hval := getD_map_range (next_power_of_2 signal.length / 2)
        (fun i => Complex.abs (fft_recursive (next_power_of_2 signal.length)
          (signalPad signal) i) * 2 / (next_power_of_2 signal.length : ℝ))
        (j + 1) hk2
      rw [hr] at hval
      simp only [List.getD_cons_succ] at hval ⊢
      rw [hval, hfft (j + 1) (by omega)]
    · intro _
      have hval := getD_map_range (next_power_of_2 signal.length / 2)
        (fun i => Complex.abs (fft_recursive (next_power_of_2 signal.length)
          (signalPad signal) i) * 2 / (next_power_of_2 signal.length : ℝ))
        0 hpos
      rw [hr] at hval
      simp only [List.getD_cons_zero] at hval ⊢
      rw [hval, hfft 0 (by omega)]
      field_simp
      ring
    · intro k hk
      exact getD_map_range _ _ k hk

/-- Witness for **C1** at sample rate `4` and the one-sample window `[1]`
(padded length `N = 1`, so `N/2 = 0` bins). -/
theorem compute_fft_output_spec_witness :
    (([1] : List ℝ) ≠ []) ∧
    ((∃ k, next_power_of_2 ([1] : List ℝ).length = 2 ^ k) ∧
     ([1] : List ℝ).length ≤ next_power_of_2 ([1] : List ℝ).length ∧
     (compute_fft 4 [1]).1.length = next_power_of_2 ([1] : List ℝ).length / 2 ∧
     (compute_fft 4 [1]).2.length = next_power_of_2 ([1] : List ℝ).length / 2 ∧
     (∀ k, 1 ≤ k → k < next_power_of_2 ([1] : List ℝ).length / 2 →
       (compute_fft 4 [1]).1.getD k 0 =
         Complex.abs (dft (next_power_of_2 ([1] : List ℝ).length)
           (signalPad [1]) k) * 2 / (next_power_of_2 ([1] : List ℝ).length : ℝ)) ∧
     (0 < next_power_of_2 ([1] : List ℝ).length / 2 →
       (compute_fft 4 [1]).1.getD 0 0 =
         Complex.abs (dft (next_power_of_2 ([1] : List ℝ).length)
           (signalPad [1]) 0) / (next_power_of_2 ([1] : List ℝ).length : ℝ)) ∧
     (∀ k, k < next_power_of_2 ([1] : List ℝ).length / 2 →
       (compute_fft 4 [1]).2.getD k 0 =
         (k : ℝ) * (4 / (next_power_of_2 ([1] : List ℝ).length : ℝ)))) :=
  ⟨by simp, compute_fft_output_spec 4 [1] (by simp)⟩

end

end CPM
